import Mathlib

/-
Verification of the Pixelfed image scraper (src/scripts/pixelfed_scraper.py).

Shallow embedding conventions:
* Python strings are modelled as Lean `String` / `List Char`.
* Python `None`-able values are `Option _`; `dict.get(k, d)` becomes
  `Option.getD`.
* The network is modelled by explicit response scripts (lists or `Nat`-indexed
  oracles of responses), so every network-dependent function becomes a pure
  function of its response script.
* Uncaught Python exceptions are modelled with `Except`.
-/

namespace Pixelfed

/-! ### Text cleaning: `strip_html` (pixelfed_scraper.py lines 29-39)

The Python code is
  `clean = re.sub(r'<[^>]+>', ' ', text)` -- replace every tag with a space
  `clean = unescape(clean)`               -- decode HTML character references
  `clean = re.sub(r'\s+', ' ', clean).strip()` -- collapse and trim whitespace
with an early return of the input when `text` is falsy (empty). -/

/-- Character class of Python's `\s` (ASCII part) used by `re.sub(r'\s+', ' ')`
and `str.strip()`. -/
def isSpace (c : Char) : Bool :=
  c = ' ' || c = '\t' || c = '\n' || c = '\r' || c = '\x0b' || c = '\x0c'

/-- One left-to-right scan implementing `re.sub(r'<[^>]+>', ' ', text)`.
The regex matches a `<`, then one or more characters that are not `>`, then
`>`; `re.sub` scans left to right replacing each non-overlapping match with a
single space and keeping everything else.  The first argument is the scanner
state: `none` = outside a candidate match, `some buf` = we have read a `<`
followed by the (reversed) buffer `buf` of non-`>` characters and are looking
for the closing `>`.  If the input ends while buffering, no match started at
that `<`, so the buffered text is emitted verbatim. -/
def removeTagsAux : Option (List Char) → List Char → List Char
  | none, [] => []
  | none, c :: rest =>
    if c = '<' then
      match rest with
      | [] => ['<']
      | c' :: b =>
        if c' = '>' then '<' :: '>' :: removeTagsAux none b
        else removeTagsAux (some []) (c' :: b)
    else c :: removeTagsAux none rest
  | some buf, [] => '<' :: buf.reverse
  | some buf, c :: rest =>
    if c = '>' then ' ' :: removeTagsAux none rest
    else removeTagsAux (some (c :: buf)) rest

/-- `re.sub(r'<[^>]+>', ' ', text)` from line 34 of the source. -/
def removeTags (s : List Char) : List Char := removeTagsAux none s

/-- One character reference at the start of the input: the decoded character
and the remaining input.  This models the reference table of the stdlib
`html.unescape` used on line 36, restricted to the references exercised by
this development; an `&` that does not start a known reference is left
verbatim (the stdlib behaves the same way on unknown references). -/
def entity? : List Char → Option (Char × List Char)
  | 'a' :: 'm' :: 'p' :: ';' :: r => some ('&', r)
  | 'l' :: 't' :: ';' :: r => some ('<', r)
  | 'g' :: 't' :: ';' :: r => some ('>', r)
  | 'q' :: 'u' :: 'o' :: 't' :: ';' :: r => some ('"', r)
  | '#' :: '3' :: '9' :: ';' :: r => some (Char.ofNat 39, r)
  | _ => none

/-- Left-to-right scan decoding character references.  The fuel argument only
serves structural termination: every step consumes at least one character, so
fuel = input length never runs out. -/
def unescapeAux : Nat → List Char → List Char
  | 0, s => s
  | _ + 1, [] => []
  | fuel + 1, c :: rest =>
    if c = '&' then
      match entity? rest with
      | some (d, r) => d :: unescapeAux fuel r
      | none => '&' :: unescapeAux fuel rest
    else c :: unescapeAux fuel rest

/-- The stdlib `html.unescape` (line 36), on the modelled reference table. -/
def unescape (s : List Char) : List Char := unescapeAux s.length s

/-- `re.sub(r'\s+', ' ', clean)` from line 38: every maximal run of whitespace
characters is replaced by a single space. -/
def collapseWs : List Char → List Char
  | [] => []
  | [c] => if isSpace c then [' '] else [c]
  | c :: c' :: rest =>
    if isSpace c then
      if isSpace c' then collapseWs (c' :: rest)
      else ' ' :: collapseWs (c' :: rest)
    else c :: collapseWs (c' :: rest)

/-- Left part of Python `str.strip()`. -/
def lstrip (s : List Char) : List Char := s.dropWhile isSpace

/-- Right part of Python `str.strip()`. -/
def rstrip (s : List Char) : List Char := (s.reverse.dropWhile isSpace).reverse

/-- Python `str.strip()`. -/
def stripWs (s : List Char) : List Char := rstrip (lstrip s)

/-- `re.sub(r'\s+', ' ', clean).strip()`, line 38. -/
def cleanWs (s : List Char) : List Char := stripWs (collapseWs s)

/-- `strip_html` on character lists: tag removal, then entity decoding, then
whitespace normalisation, with the early return for falsy (empty) input. -/
def stripHtmlCore (t : List Char) : List Char :=
  if t = [] then t else cleanWs (unescape (removeTags t))

/-- `strip_html` (pixelfed_scraper.py lines 29-39). -/
def strip_html (s : String) : String := ⟨stripHtmlCore s.data⟩

/-! ### Data model (pixelfed_scraper.py, dict shapes used by the script)

Optional dict keys are `Option` fields; keys the script reads with a
`get(key, default)` carrying a non-`None` default are noted per field. -/

/-- A media attachment dict.  `type` is `Option` because the script reads it
as `media.get("type", "image")`; `meta` is kept opaque (the script only
copies it through). -/
structure Media where
  id : Option String
  type : Option String
  url : Option String
  preview_url : Option String
  remote_url : Option String
  description : Option String
  blurhash : Option String
  meta : Option String
  deriving DecidableEq, Repr

/-- The `tags` value of a post.  The API returns a list of dicts carrying a
`name` key (read as `t.get("name", "")`), the Atom-feed parser produces a
list of plain strings; `extract_images_from_posts` distinguishes the two by
inspecting the first element. -/
inductive Tags where
  | objs : List (Option String) → Tags
  | strs : List String → Tags
  deriving DecidableEq, Repr

/-- A post dict.  Counter fields are read as `post.get(key, 0)` and content
as `post.get("content", "")`, so a missing counter is the same as `0` and
missing content the same as `""`; both are modelled with `Option`/`getD` at
the use site or folded into the field where the script never distinguishes
the two. -/
structure Post where
  id : Option String
  url : Option String
  content : Option String
  created_at : Option String
  media_attachments : List Media
  favourites_count : Nat
  reblogs_count : Nat
  replies_count : Nat
  tags : Tags
  visibility : Option String
  deriving DecidableEq, Repr

/-- One flattened image record (the dict built on lines 431-449). -/
structure ImageRec where
  id : Option String
  post_id : Option String
  url : Option String
  preview_url : Option String
  remote_url : Option String
  description : Option String
  blurhash : Option String
  meta : Option String
  post_url : Option String
  post_content : Option String
  post_content_html : Option String
  created_at : Option String
  visibility : Option String
  favourites_count : Nat
  reblogs_count : Nat
  replies_count : Nat
  tags : List String
  deriving DecidableEq, Repr

/-- Line 416-418: an attachment is kept iff `media.get("type", "image")` is
`"image"` or `"gifv"`. -/
def qualifies (m : Media) : Bool :=
  m.type.getD "image" = "image" || m.type.getD "image" = "gifv"

/-- Lines 424-429: tag-name extraction.  For API-shaped tags the script keeps
`t.get("name", "")` for entries whose name is present and non-empty (Python
truthiness); for feed-shaped tags it keeps the strings as they are. -/
def tagNames : Tags → List String
  | .objs l => l.filterMap fun o =>
      match o with
      | some n => if n = "" then none else some n
      | none => none
  | .strs l => l

/-- Lines 420-449: the image record built for one qualifying attachment of
one post.  `list(set(tag_names))` removes duplicate tags with an unspecified
iteration order; it is modelled by `List.dedup`, which also yields a
duplicate-free list of the same tag names.  The opaque `meta` block is
copied through (`media.get("meta", {})`: its empty-dict default is
identified with the absent value of the opaque model). -/
def recordOf (p : Post) (m : Media) : ImageRec :=
  let content := p.content.getD ""
  let content_clean : Option String :=
    if content = "" then none else some (strip_html content)
  { id := m.id
    post_id := p.id
    url := m.url
    preview_url := m.preview_url
    remote_url := m.remote_url
    description := m.description
    blurhash := m.blurhash
    meta := m.meta
    post_url := p.url
    post_content := content_clean
    post_content_html := if content_clean = some content then none else some content
    created_at := p.created_at
    visibility := p.visibility
    favourites_count := p.favourites_count
    reblogs_count := p.reblogs_count
    replies_count := p.replies_count
    tags := (tagNames p.tags).dedup }

/-- The inner loop of `extract_images_from_posts` (lines 412-450): iterate
over the attachments in order, skip the non-qualifying ones (`continue`),
and append one record per qualifying attachment. -/
def imagesOfPost (p : Post) : List ImageRec :=
  (p.media_attachments.filter qualifies).map (recordOf p)

/-- `extract_images_from_posts` (lines 408-452): the outer loop over posts in
order, concatenating each post's records. -/
def extract_images_from_posts : List Post → List ImageRec
  | [] => []
  | p :: rest => imagesOfPost p ++ extract_images_from_posts rest

/-! ### HTTP headers (lines 56-64) -/

/-- Python truthiness of an optional string (`if account_id`,
`if ACCESS_TOKEN`): present and non-empty. -/
def pyTruthy : Option String → Bool
  | none => false
  | some s => decide (s ≠ "")

/-- `get_headers` (lines 56-64): base headers, plus a bearer `Authorization`
header exactly when the module-level `ACCESS_TOKEN` is truthy (non-empty).
Dict insertion order is preserved. -/
def get_headers (token : String) (accept : String) : List (String × String) :=
  let headers := [("Accept", accept),
                  ("User-Agent", "PixelfedImageScraper/2.0 (+https://github.com)")]
  if token ≠ "" then headers ++ [("Authorization", "Bearer " ++ token)] else headers

/-- The headers used by every request of `make_api_request` (line 69:
`headers = get_headers()`, with the default accept value).  Both API
strategies (line 490 and line 496 of `main`) call `get_posts_via_api`, which
issues all of its requests through `make_api_request`, so both strategies
send exactly these headers. -/
def apiRequestHeaders (token : String) : List (String × String) :=
  get_headers token "application/json"

/-! ### `make_api_request` (lines 67-104)

Modelled over a response script: `script k` is what the `k`-th
`requests.get` call of this `make_api_request` invocation produces.  The
returned pair is (outcome, number of requests issued); the outcome is
`Except.error e` when an uncaught Python exception `e` escapes the function,
and otherwise `Except.ok r` where `r` models the Python return value
(`none` = `None`, `some ()` = parsed JSON). -/

/-- The `Retry-After` response header value: a decimal-digit string or
something else (`int(...)` succeeds only on the former). -/
inductive RAHeader where
  | num : Nat → RAHeader
  | other : RAHeader
  deriving DecidableEq, Repr

/-- What `response.text` / `response.json()` yield for a response the code
reaches line 92 with: blank body, valid JSON, or a body whose parse raises
`requests.exceptions.JSONDecodeError`. -/
inductive BodyRes where
  | empty : BodyRes
  | json : BodyRes
  | bad : BodyRes
  deriving DecidableEq, Repr

/-- One HTTP response: status code, optional `Retry-After` header, body. -/
structure HResp where
  status : Nat
  retryAfter : Option RAHeader
  body : BodyRes
  deriving DecidableEq, Repr

/-- One network event: `requests.get` raised a `RequestException`, or it
returned a response. -/
inductive NetEvent where
  | raised : NetEvent
  | resp : HResp → NetEvent
  deriving DecidableEq, Repr

/-- Uncaught exception kinds relevant to `make_api_request`: `int()` on a
non-numeric `Retry-After` value raises `ValueError`, which the
`except (JSONDecodeError, RequestException)` clause does not catch. -/
inductive PyExc where
  | valueError : PyExc
  deriving DecidableEq, Repr

/-- The `for attempt in range(MAX_RETRIES)` loop of `make_api_request`.
`fuel` is the number of attempts left (including the current one); when it
reaches zero the loop falls through to the final `return None` (line 104).
`k` counts requests issued so far.  Branches, in source order:
429 (sleep `int(Retry-After or RETRY_DELAY)` then `continue` — `ValueError`
escapes when the header value is not numeric); 401/403/404 `return None`;
status ≥ 500 retry with bound; other statuses ≥ 400 raise `HTTPError` via
`raise_for_status`, which the `except RequestException` clause catches and
retries with the same bound; blank body `return None`; JSON body returned;
bad JSON raises `JSONDecodeError`, caught and retried with the bound.
A `RequestException` from `requests.get` itself is caught the same way. -/
def makeApiGo (script : Nat → NetEvent) : Nat → Nat → Except PyExc (Option Unit) × Nat
  | 0, k => (.ok none, k)
  | fuel + 1, k =>
    match script k with
    | .raised =>
      if fuel = 0 then (.ok none, k + 1) else makeApiGo script fuel (k + 1)
    | .resp r =>
      if r.status = 429 then
        match r.retryAfter with
        | some .other => (.error .valueError, k + 1)
        | _ => makeApiGo script fuel (k + 1)
      else if r.status = 401 ∨ r.status = 403 ∨ r.status = 404 then (.ok none, k + 1)
      else if 500 ≤ r.status then
        if fuel = 0 then (.ok none, k + 1) else makeApiGo script fuel (k + 1)
      else if 400 ≤ r.status then
        if fuel = 0 then (.ok none, k + 1) else makeApiGo script fuel (k + 1)
      else
        match r.body with
        | .empty => (.ok none, k + 1)
        | .json => (.ok (some ()), k + 1)
        | .bad => if fuel = 0 then (.ok none, k + 1) else makeApiGo script fuel (k + 1)

/-- `make_api_request` (lines 67-104) with `MAX_RETRIES = 3` (line 49). -/
def make_api_request (script : Nat → NetEvent) : Except PyExc (Option Unit) × Nat :=
  makeApiGo script 3 0

/-! ### Pagination: `get_posts_via_api` (lines 171-206)

Modelled over the sequence of responses the `while True` loop receives, one
per page request, as parsed item lists (`none` = `make_api_request` returned
`None`).  The model is generic in the item type; the script only reads
`posts[-1]["id"]`, modelled by `idOf`.  The result is the accumulated post
list together with the `max_id` cursor sent with each request in order
(`none` = no `max_id` parameter, as on the first request). -/

/-- The `while True` loop.  `pmax` is the current `max_id` entry of the
(mutated, persistent) `params` dict, `maxId` the `max_id` variable; each
iteration starts with `if max_id: params["max_id"] = max_id` (line 188-189,
Python truthiness), then requests a page with the resulting `params`
(recording the cursor that was sent); it stops on a missing/empty page
(`if not posts: break`), extends the accumulator, stops when the page is
shorter than the batch size 40 (`if len(posts) < 40: break`), and otherwise
sets `max_id` to the last item's identifier (`posts[-1]["id"]`) and
continues. -/
def apiGo {α : Type} (idOf : α → String) :
    List (Option (List α)) → Option String → Option String →
      List α × List (Option String)
  | [], pmax, maxId =>
    ([], [if pyTruthy maxId then maxId else pmax])
  | r :: rest, pmax, maxId =>
    let pmax' := if pyTruthy maxId then maxId else pmax
    match r with
    | none => ([], [pmax'])
    | some posts =>
      if posts.isEmpty then ([], [pmax'])
      else if posts.length < 40 then (posts, [pmax'])
      else
        let nxt := apiGo idOf rest pmax' (posts.getLast?.map idOf)
        (posts ++ nxt.1, pmax' :: nxt.2)

/-- `get_posts_via_api`'s pagination: the loop starts with `max_id = None`
and no `max_id` entry in `params`. -/
def get_posts_via_api {α : Type} (idOf : α → String)
    (resps : List (Option (List α))) : List α × List (Option String) :=
  apiGo idOf resps none none

/-- A page that keeps the loop going: present, and with at least the batch
size 40 of items (`not posts` and `len(posts) < 40` both fail). -/
def isFull {α : Type} : Option (List α) → Bool
  | none => false
  | some p => decide (40 ≤ p.length)

/-- Valid paginated responses: every item of every served page has a
non-empty identifier (as real Pixelfed/Mastodon ids are). -/
def validPages {α : Type} (idOf : α → String) (resps : List (Option (List α))) : Prop :=
  ∀ page ∈ resps, ∀ x ∈ page.getD [], idOf x ≠ ""

/-! ### Web scraping: `scrape_posts_from_web` (lines 348-405)

The regex harvesting of image URLs from the profile HTML is not modelled;
the model takes the list of matched URLs (`images`, line 365, in match
order) and embeds the loop on lines 374-400: deduplicate via the `seen`
set, synthesizing one minimal post per first occurrence of a URL. -/

/-- The attachment dict built on lines 385-393. -/
def scrapeAttachment (u : String) : Media :=
  { id := none
    type := some "image"
    url := some u
    preview_url := some u
    remote_url := none
    description := none
    blurhash := none
    meta := none }

/-- The post dict built on lines 380-399: null id, url, content and
timestamp, one image attachment, zero counters, no tags, public. -/
def mkScrapePost (u : String) : Post :=
  { id := none
    url := none
    content := none
    created_at := none
    media_attachments := [scrapeAttachment u]
    favourites_count := 0
    reblogs_count := 0
    replies_count := 0
    tags := .strs []
    visibility := some "public" }

/-- The dedup loop (lines 374-400): `seen` collects already-emitted URLs. -/
def scrapeGo : List String → List String → List Post
  | [], _ => []
  | u :: rest, seen =>
    if u ∈ seen then scrapeGo rest seen
    else mkScrapePost u :: scrapeGo rest (u :: seen)

/-- `scrape_posts_from_web` applied to the regex matches found in the page. -/
def scrape_posts_from_web (images : List String) : List Post :=
  scrapeGo images []

/-! ### The orchestrator: `main` (lines 465-538)

The fetch phase (lines 488-510) tries the four strategies in order; each
strategy's would-be result is an oracle parameter (`r1`-`r4`), since the
strategies' own behaviour is modelled separately.  The model additionally
returns the list of invoked strategy numbers in invocation order.  Guards
are exactly the source's: strategy 1 needs a truthy `account_id` and a
truthy `ACCESS_TOKEN`; strategy 2 needs empty `posts` so far and a truthy
`account_id`; strategies 3 and 4 need empty `posts` so far. -/

def runStrategies (account_id : Option String) (token : String)
    (r1 r2 r3 r4 : List Post) : List Post × String × List Nat :=
  let c1 := pyTruthy account_id = true ∧ token ≠ ""
  let p1 := if c1 then r1 else []
  let m1 := if c1 ∧ r1 ≠ [] then "api" else "none"
  let i1 : List Nat := if c1 then [1] else []
  let c2 := p1 = [] ∧ pyTruthy account_id = true
  let p2 := if c2 then r2 else p1
  let m2 := if c2 ∧ r2 ≠ [] then "api_public" else m1
  let i2 := if c2 then i1 ++ [2] else i1
  let c3 := p2 = []
  let p3 := if c3 then r3 else p2
  let m3 := if c3 ∧ r3 ≠ [] then "atom_feed" else m2
  let i3 := if c3 then i2 ++ [3] else i2
  let c4 := p3 = []
  let p4 := if c4 then r4 else p3
  let m4 := if c4 ∧ r4 ≠ [] then "web_scraping" else m3
  let i4 := if c4 then i3 ++ [4] else i3
  (p4, m4, i4)

/-- The claim-relevant part of the output document built on lines 523-536.
`save_json` is called unconditionally, so producing this value models the
run writing its output; timestamps and file paths are environmental and not
modelled. -/
structure RunOutput where
  account_id : Option String
  total_posts : Nat
  total_images : Nat
  method : String
  images : List ImageRec
  deriving DecidableEq, Repr

/-- `main`'s data flow after account-id resolution: fetch posts via the
strategy cascade, extract images, and build the output document. -/
def mainRun (account_id : Option String) (token : String)
    (r1 r2 r3 r4 : List Post) : RunOutput :=
  let res := runStrategies account_id token r1 r2 r3 r4
  let images := extract_images_from_posts res.1
  { account_id := account_id
    total_posts := res.1.length
    total_images := images.length
    method := res.2.1
    images := images }

/-! ### Specification predicates and concrete demonstration inputs -/

/-- Tag-freeness: every `<` in the string is either immediately followed by
`>` (so the regex `<[^>]+>` cannot match at it) or has no `>` anywhere after
it.  This is exactly the condition under which `re.sub(r'<[^>]+>', ' ', ·)`
finds no match. -/
def NoTag (s : List Char) : Prop :=
  ∀ l r, s = l ++ '<' :: r → (∃ t, r = '>' :: t) ∨ '>' ∉ r

/-- Head-of-list whitespace test. -/
def headIsSpace : List Char → Bool
  | [] => false
  | c :: _ => isSpace c

/-- Well-formed collapsed text: every whitespace character is a plain space
and no two consecutive characters are whitespace. -/
def wsOk : List Char → Prop
  | [] => True
  | c :: rest => (isSpace c = true → c = ' ' ∧ headIsSpace rest = false) ∧ wsOk rest

/-- A minimal concrete post for concrete instantiations. -/
def demoPost : Post :=
  { id := some "1"
    url := none
    content := none
    created_at := none
    media_attachments := []
    favourites_count := 0
    reblogs_count := 0
    replies_count := 0
    tags := .strs []
    visibility := some "public" }

/-- A non-image attachment (`type` is `"video"`). -/
def demoVideoAttachment : Media :=
  { id := none
    type := some "video"
    url := some "u"
    preview_url := none
    remote_url := none
    description := none
    blurhash := none
    meta := none }

/-- A post whose only attachment is a video. -/
def demoVideoPost : Post :=
  { demoPost with media_attachments := [demoVideoAttachment] }

/-- An image attachment. -/
def demoImageAttachment : Media :=
  { id := some "m1"
    type := some "image"
    url := some "img"
    preview_url := some "img"
    remote_url := none
    description := none
    blurhash := none
    meta := none }

/-- A post with one image attachment and duplicated hashtags. -/
def demoTagPost : Post :=
  { demoPost with
    media_attachments := [demoImageAttachment]
    tags := .objs [some "a", some "a", some "b"] }

/-- A full API page: 40 items, the last one named `"last"`. -/
def demoPage40 : List String := List.replicate 39 "x" ++ ["last"]

/-- A short API page: 12 items. -/
def demoPage12 : List String := List.replicate 12 "y"

/-- A two-page response script: one full page, one short page. -/
def demoPages : List (Option (List String)) := [some demoPage40, some demoPage12]

/-! ### Lemmas about the tag-removal scan -/

theorem rt_none_ne {c : Char} (rest : List Char) (h : c ≠ '<') :
    removeTagsAux none (c :: rest) = c :: removeTagsAux none rest := by
  cases rest with
  | nil => rw [removeTagsAux.eq_2, if_neg h]
  | cons c' b => rw [removeTagsAux.eq_3, if_neg h]

theorem rt_none_lt_single : removeTagsAux none ['<'] = ['<'] := rfl

theorem rt_none_lt_gt (b : List Char) :
    removeTagsAux none ('<' :: '>' :: b) = '<' :: '>' :: removeTagsAux none b := rfl

theorem rt_none_lt_ne {c' : Char} (b : List Char) (h : c' ≠ '>') :
    removeTagsAux none ('<' :: c' :: b) = removeTagsAux (some []) (c' :: b) := by
  rw [removeTagsAux.eq_3, if_pos rfl, if_neg h]

theorem rt_some_nil (buf : List Char) :
    removeTagsAux (some buf) [] = '<' :: buf.reverse := rfl

theorem rt_some_gt (buf rest : List Char) :
    removeTagsAux (some buf) ('>' :: rest) = ' ' :: removeTagsAux none rest := rfl

theorem rt_some_ne (buf : List Char) {c : Char} (rest : List Char) (h : c ≠ '>') :
    removeTagsAux (some buf) (c :: rest) = removeTagsAux (some (c :: buf)) rest := by
  rw [removeTagsAux.eq_5, if_neg h]

theorem noTag_nil : NoTag [] := by
  intro l r h
  exact absurd h (by simp)

theorem noTag_tail {c : Char} {s : List Char} (h : NoTag (c :: s)) : NoTag s := by
  intro l r hd
  exact h (c :: l) r (by simp [hd])

theorem noTag_cons {c : Char} {s : List Char} (hc : c ≠ '<') (h : NoTag s) :
    NoTag (c :: s) := by
  intro l r hd
  cases l with
  | nil =>
    simp only [List.nil_append, List.cons.injEq] at hd
    exact absurd hd.1 hc
  | cons a l' =>
    simp only [List.cons_append, List.cons.injEq] at hd
    exact h l' r hd.2

theorem noTag_cons_lt {s : List Char} :
    NoTag ('<' :: s) ↔ ((∃ t, s = '>' :: t) ∨ '>' ∉ s) ∧ NoTag s := by
  constructor
  · intro h
    exact ⟨h [] s rfl, noTag_tail h⟩
  · rintro ⟨hh, hs⟩
    intro l r hd
    cases l with
    | nil =>
      simp only [List.nil_append, List.cons.injEq] at hd
      exact hd.2 ▸ hh
    | cons a l' =>
      simp only [List.cons_append, List.cons.injEq] at hd
      exact hs l' r hd.2

theorem noTag_of_gt_not_mem {s : List Char} (h : '>' ∉ s) : NoTag s := by
  intro l r hd
  refine Or.inr fun hr => h ?_
  rw [hd]
  exact List.mem_append_right _ (List.mem_cons_of_mem _ hr)

theorem noTag_append_left {l r : List Char} (h : NoTag (l ++ r)) : NoTag l := by
  intro a b hd
  have h2 : l ++ r = a ++ '<' :: (b ++ r) := by rw [hd]; simp
  rcases h a (b ++ r) h2 with ⟨t, ht⟩ | hg
  · cases b with
    | nil => exact Or.inr (by simp)
    | cons x b' =>
      simp only [List.cons_append, List.cons.injEq] at ht
      exact Or.inl ⟨b', by rw [ht.1]⟩
  · exact Or.inr fun hb => hg (List.mem_append_left _ hb)

theorem noTag_append_right {a t : List Char} (h : NoTag (a ++ t)) : NoTag t := by
  induction a with
  | nil => exact h
  | cons c a' ih => exact ih (noTag_tail h)

/-- If the rest of the input has no `>`, the buffering state flushes the
buffered candidate tag verbatim. -/
theorem rt_some_of_no_gt {s : List Char} (hs : '>' ∉ s) :
    ∀ buf, removeTagsAux (some buf) s = '<' :: buf.reverse ++ s := by
  induction s with
  | nil => intro buf; simp [rt_some_nil]
  | cons c rest ih =>
    intro buf
    have hc : c ≠ '>' := fun h => hs (h ▸ List.mem_cons_self c rest)
    have hrest : '>' ∉ rest := fun h => hs (List.mem_cons_of_mem _ h)
    rw [rt_some_ne _ _ hc, ih hrest]
    simp

/-- The output of the tag-removal scan is tag-free. -/
theorem noTag_removeTagsAux :
    ∀ n s st, s.length ≤ n → (∀ buf, st = some buf → '>' ∉ buf) →
      NoTag (removeTagsAux st s) := by
  intro n
  induction n with
  | zero =>
    intro s st hlen hbuf
    have : s = [] := List.length_eq_zero.mp (Nat.le_zero.mp hlen)
    subst this
    cases st with
    | none => exact noTag_nil
    | some buf =>
      rw [rt_some_nil]
      refine noTag_cons_lt.mpr ⟨Or.inr ?_, noTag_of_gt_not_mem ?_⟩ <;>
        simpa using hbuf buf rfl
  | succ n ih =>
    intro s st hlen hbuf
    cases s with
    | nil =>
      cases st with
      | none => exact noTag_nil
      | some buf =>
        rw [rt_some_nil]
        refine noTag_cons_lt.mpr ⟨Or.inr ?_, noTag_of_gt_not_mem ?_⟩ <;>
          simpa using hbuf buf rfl
    | cons c rest =>
      simp only [List.length_cons, Nat.succ_le_succ_iff] at hlen
      cases st with
      | some buf =>
        by_cases hc : c = '>'
        · subst hc
          rw [rt_some_gt]
          exact noTag_cons (by decide) (ih rest none hlen (by simp))
        · rw [rt_some_ne _ _ hc]
          refine ih rest (some (c :: buf)) hlen ?_
          intro b hb
          cases hb
          simp only [List.mem_cons]
          push_neg
          exact ⟨fun h => hc h.symm, hbuf buf rfl⟩
      | none =>
        by_cases hc : c = '<'
        · subst hc
          cases rest with
          | nil =>
            rw [rt_none_lt_single]
            exact noTag_of_gt_not_mem (by decide)
          | cons c' b =>
            by_cases hc' : c' = '>'
            · subst hc'
              rw [rt_none_lt_gt]
              refine noTag_cons_lt.mpr ⟨Or.inl ⟨_, rfl⟩, ?_⟩
              refine noTag_cons (by decide) (ih b none ?_ (by simp))
              simp only [List.length_cons] at hlen
              omega
            · rw [rt_none_lt_ne _ hc']
              exact ih (c' :: b) (some []) hlen (by simp)
        · rw [rt_none_ne _ hc]
          exact noTag_cons hc (ih rest none hlen (by simp))

theorem noTag_removeTags (s : List Char) : NoTag (removeTags s) :=
  noTag_removeTagsAux s.length s none le_rfl (by simp)

/-- On a tag-free string the tag-removal pass is the identity. -/
theorem removeTags_id_of_noTag' :
    ∀ n s, s.length ≤ n → NoTag s → removeTagsAux none s = s := by
  intro n
  induction n with
  | zero =>
    intro s hlen _
    have : s = [] := List.length_eq_zero.mp (Nat.le_zero.mp hlen)
    subst this; rfl
  | succ n ih =>
    intro s hlen hnt
    cases s with
    | nil => rfl
    | cons c rest =>
      simp only [List.length_cons, Nat.succ_le_succ_iff] at hlen
      by_cases hc : c = '<'
      · subst hc
        rcases (noTag_cons_lt.mp hnt).1 with ⟨t, ht⟩ | hg
        · subst ht
          rw [rt_none_lt_gt]
          have ht' : NoTag t := noTag_tail (noTag_tail hnt)
          simp only [List.length_cons] at hlen
          rw [ih t (by omega) ht']
        · cases rest with
          | nil => exact rt_none_lt_single
          | cons c' b =>
            have hc' : c' ≠ '>' := fun h => hg (h ▸ List.mem_cons_self c' b)
            rw [rt_none_lt_ne _ hc', rt_some_of_no_gt hg []]
            rfl
      · rw [rt_none_ne _ hc, ih rest hlen (noTag_tail hnt)]

theorem removeTags_id_of_noTag {s : List Char} (h : NoTag s) : removeTags s = s :=
  removeTags_id_of_noTag' s.length s le_rfl h

/-- Characters of the scan output, other than the inserted space and the
re-emitted angle brackets, come from the input or the buffer. -/
theorem mem_removeTagsAux {x : Char} (hx1 : x ≠ ' ') (hx2 : x ≠ '<') :
    ∀ n s st, s.length ≤ n → x ∉ s → (∀ buf, st = some buf → x ∉ buf) →
      x ∉ removeTagsAux st s := by
  intro n
  induction n with
  | zero =>
    intro s st hlen hxs hbuf
    have : s = [] := List.length_eq_zero.mp (Nat.le_zero.mp hlen)
    subst this
    cases st with
    | none => simp [removeTagsAux]
    | some buf =>
      rw [rt_some_nil]
      simp only [List.mem_cons, List.mem_append, List.mem_reverse]
      push_neg
      exact ⟨hx2, by simpa using hbuf buf rfl⟩
  | succ n ih =>
    intro s st hlen hxs hbuf
    cases s with
    | nil =>
      cases st with
      | none => simp [removeTagsAux]
      | some buf =>
        rw [rt_some_nil]
        simp only [List.mem_cons, List.mem_reverse]
        push_neg
        exact ⟨hx2, by simpa using hbuf buf rfl⟩
    | cons c rest =>
      simp only [List.length_cons, Nat.succ_le_succ_iff] at hlen
      have hxc : x ≠ c := fun h => hxs (h ▸ List.mem_cons_self c rest)
      have hxrest : x ∉ rest := fun h => hxs (List.mem_cons_of_mem _ h)
      cases st with
      | some buf =>
        by_cases hc : c = '>'
        · subst hc
          rw [rt_some_gt]
          simp only [List.mem_cons]
          push_neg
          exact ⟨hx1, ih rest none hlen hxrest (by simp)⟩
        · rw [rt_some_ne _ _ hc]
          refine ih rest (some (c :: buf)) hlen hxrest ?_
          intro b hb
          cases hb
          simp only [List.mem_cons]
          push_neg
          exact ⟨hxc, hbuf buf rfl⟩
      | none =>
        by_cases hc : c = '<'
        · subst hc
          cases rest with
          | nil =>
            rw [rt_none_lt_single]
            simp [hx2]
          | cons c' b =>
            have hxb : x ∉ b := fun h => hxrest (List.mem_cons_of_mem _ h)
            by_cases hc' : c' = '>'
            · subst hc'
              rw [rt_none_lt_gt]
              simp only [List.mem_cons]
              push_neg
              refine ⟨hx2, fun h => hxrest (h ▸ List.mem_cons_self _ _), ?_⟩
              refine ih b none ?_ hxb (by simp)
              simp only [List.length_cons] at hlen
              omega
            · rw [rt_none_lt_ne _ hc']
              exact ih (c' :: b) (some []) hlen hxrest (by simp)
        · rw [rt_none_ne _ hc]
          simp only [List.mem_cons]
          push_neg
          exact ⟨hxc, ih rest none hlen hxrest (by simp)⟩

theorem amp_not_mem_removeTags {t : List Char} (h : '&' ∉ t) : '&' ∉ removeTags t :=
  mem_removeTagsAux (by decide) (by decide) t.length t none le_rfl h (by simp)

/-! ### Lemmas about whitespace normalisation -/

theorem wsOk_nil : wsOk [] := trivial

theorem cw_single_sp {c : Char} (h : isSpace c = true) : collapseWs [c] = [' '] := by
  rw [collapseWs, if_pos h]

theorem cw_single {c : Char} (h : isSpace c = false) : collapseWs [c] = [c] := by
  rw [collapseWs, if_neg]
  simp [h]

theorem cw_sp_sp {c c' : Char} (rest : List Char)
    (h : isSpace c = true) (h' : isSpace c' = true) :
    collapseWs (c :: c' :: rest) = collapseWs (c' :: rest) := by
  rw [collapseWs, if_pos h, if_pos h']

theorem cw_sp_ns {c c' : Char} (rest : List Char)
    (h : isSpace c = true) (h' : isSpace c' = false) :
    collapseWs (c :: c' :: rest) = ' ' :: collapseWs (c' :: rest) := by
  rw [collapseWs, if_pos h, if_neg]
  simp [h']

theorem cw_ns {c : Char} (c' : Char) (rest : List Char) (h : isSpace c = false) :
    collapseWs (c :: c' :: rest) = c :: collapseWs (c' :: rest) := by
  rw [collapseWs, if_neg]
  simp [h]

theorem collapseWs_head_not_space {c : Char} (rest : List Char) (h : isSpace c = false) :
    ∃ t, collapseWs (c :: rest) = c :: t := by
  cases rest with
  | nil => exact ⟨[], cw_single h⟩
  | cons c' b => exact ⟨collapseWs (c' :: b), cw_ns c' b h⟩

theorem wsOk_collapseWs (s : List Char) : wsOk (collapseWs s) := by
  induction s with
  | nil => exact wsOk_nil
  | cons c rest ih =>
    cases rest with
    | nil =>
      by_cases h : isSpace c = true
      · rw [cw_single_sp h]
        exact ⟨fun _ => ⟨rfl, rfl⟩, wsOk_nil⟩
      · rw [cw_single (by simpa using h)]
        exact ⟨fun hs => absurd hs h, wsOk_nil⟩
    | cons c' b =>
      by_cases h : isSpace c = true
      · by_cases h' : isSpace c' = true
        · rw [cw_sp_sp b h h']
          exact ih
        · have h'' : isSpace c' = false := by simpa using h'
          rw [cw_sp_ns b h h'']
          obtain ⟨t, ht⟩ := collapseWs_head_not_space b h''
          refine ⟨fun _ => ⟨rfl, ?_⟩, ih⟩
          rw [ht]
          simpa [headIsSpace] using h''
      · have h'' : isSpace c = false := by simpa using h
        rw [cw_ns c' b h'']
        exact ⟨fun hs => absurd hs h, ih⟩

theorem wsOk_append_left {l r : List Char} (h : wsOk (l ++ r)) : wsOk l := by
  induction l with
  | nil => exact wsOk_nil
  | cons c l' ih =>
    rw [List.cons_append] at h
    refine ⟨fun hs => ?_, ih h.2⟩
    obtain ⟨hc, hh⟩ := h.1 hs
    refine ⟨hc, ?_⟩
    cases l' with
    | nil => rfl
    | cons d l'' => simpa [headIsSpace] using hh

theorem wsOk_dropWhile (p : Char → Bool) {s : List Char} (h : wsOk s) :
    wsOk (s.dropWhile p) := by
  induction s with
  | nil => exact h
  | cons c rest ih =>
    by_cases hp : p c = true
    · rw [List.dropWhile_cons, if_pos hp]
      exact ih h.2
    · rw [List.dropWhile_cons, if_neg (by simpa using hp)]
      exact h

theorem rstrip_prefix (s : List Char) : ∃ t, s = rstrip s ++ t := by
  refine ⟨(s.reverse.takeWhile isSpace).reverse, ?_⟩
  rw [rstrip]
  conv_lhs => rw [← s.reverse_reverse]
  conv_lhs => rw [← List.takeWhile_append_dropWhile (p := isSpace) (l := s.reverse)]
  rw [List.reverse_append]

theorem wsOk_rstrip {s : List Char} (h : wsOk s) : wsOk (rstrip s) := by
  obtain ⟨t, ht⟩ := rstrip_prefix s
  exact wsOk_append_left (ht ▸ h)

theorem collapseWs_id_of_wsOk : ∀ s, wsOk s → collapseWs s = s := by
  intro s
  induction s with
  | nil => intro _; rfl
  | cons c rest ih =>
    intro h
    cases rest with
    | nil =>
      by_cases hc : isSpace c = true
      · obtain ⟨hc', _⟩ := h.1 hc
        rw [cw_single_sp hc, hc']
      · rw [cw_single (by simpa using hc)]
    | cons c' b =>
      by_cases hc : isSpace c = true
      · obtain ⟨hc', hh⟩ := h.1 hc
        have h' : isSpace c' = false := by simpa [headIsSpace] using hh
        rw [cw_sp_ns b hc h', ih h.2, hc']
      · rw [cw_ns c' b (by simpa using hc), ih h.2]

theorem lstrip_id {s : List Char} (h : headIsSpace s = false) : lstrip s = s := by
  cases s with
  | nil => rfl
  | cons c rest =>
    simp only [headIsSpace] at h
    rw [lstrip, List.dropWhile_cons, if_neg (by simp [h])]

theorem rstrip_id {s : List Char} (h : headIsSpace s.reverse = false) : rstrip s = s := by
  rw [rstrip]
  cases hr : s.reverse with
  | nil =>
    have : s = [] := by simpa using congrArg List.reverse hr
    simp [this]
  | cons c rest =>
    rw [hr] at h
    simp only [headIsSpace] at h
    rw [List.dropWhile_cons, if_neg (by simp [h]), ← hr, List.reverse_reverse]

theorem headIsSpace_dropWhile (s : List Char) :
    headIsSpace (s.dropWhile isSpace) = false := by
  induction s with
  | nil => rfl
  | cons c rest ih =>
    by_cases h : isSpace c = true
    · rw [List.dropWhile_cons, if_pos h]
      exact ih
    · rw [List.dropWhile_cons, if_neg (by simpa using h)]
      simpa [headIsSpace] using h

theorem headIsSpace_rstrip {s : List Char} (h : headIsSpace s = false) :
    headIsSpace (rstrip s) = false := by
  obtain ⟨t, ht⟩ := rstrip_prefix s
  cases hr : rstrip s with
  | nil => rfl
  | cons c rest =>
    rw [hr] at ht
    rw [ht] at h
    simpa [headIsSpace] using h

theorem rstrip_reverse_head (s : List Char) :
    headIsSpace (rstrip s).reverse = false := by
  rw [rstrip, List.reverse_reverse]
  exact headIsSpace_dropWhile _

theorem stripWs_id_of_trimmed {s : List Char}
    (h1 : headIsSpace s = false) (h2 : headIsSpace s.reverse = false) :
    stripWs s = s := by
  rw [stripWs, lstrip_id h1, rstrip_id h2]

/-- Collapsing and trimming whitespace is idempotent. -/
theorem cleanWs_idem (s : List Char) : cleanWs (cleanWs s) = cleanWs s := by
  have h1 : wsOk (collapseWs s) := wsOk_collapseWs s
  have h2 : wsOk (cleanWs s) := by
    rw [cleanWs, stripWs]
    exact wsOk_rstrip (wsOk_dropWhile _ h1)
  have h3 : headIsSpace (cleanWs s) = false := by
    rw [cleanWs, stripWs]
    exact headIsSpace_rstrip (headIsSpace_dropWhile _)
  have h4 : headIsSpace (cleanWs s).reverse = false := by
    rw [cleanWs, stripWs]
    exact rstrip_reverse_head _
  conv_lhs => rw [cleanWs, collapseWs_id_of_wsOk _ h2]
  exact stripWs_id_of_trimmed h3 h4

/-- Characters of the collapsed string come from the input or are spaces. -/
theorem mem_collapseWs {x : Char} : ∀ {s : List Char}, x ∈ collapseWs s → x ∈ s ∨ x = ' ' := by
  intro s
  induction s with
  | nil => intro h; exact absurd h (by simp [collapseWs])
  | cons c rest ih =>
    intro h
    cases rest with
    | nil =>
      by_cases hc : isSpace c = true
      · rw [cw_single_sp hc] at h
        simp only [List.mem_singleton] at h
        exact Or.inr h
      · rw [cw_single (by simpa using hc)] at h
        exact Or.inl h
    | cons c' b =>
      by_cases hc : isSpace c = true
      · by_cases hc' : isSpace c' = true
        · rw [cw_sp_sp b hc hc'] at h
          rcases ih h with hm | he
          · exact Or.inl (List.mem_cons_of_mem _ hm)
          · exact Or.inr he
        · rw [cw_sp_ns b hc (by simpa using hc')] at h
          rcases List.mem_cons.mp h with he | hm
          · exact Or.inr he
          · rcases ih hm with hm' | he'
            · exact Or.inl (List.mem_cons_of_mem _ hm')
            · exact Or.inr he'
      · rw [cw_ns c' b (by simpa using hc)] at h
        rcases List.mem_cons.mp h with he | hm
        · exact Or.inl (he ▸ List.mem_cons_self _ _)
        · rcases ih hm with hm' | he'
          · exact Or.inl (List.mem_cons_of_mem _ hm')
          · exact Or.inr he'

theorem gt_not_mem_collapseWs {s : List Char} (h : '>' ∉ s) : '>' ∉ collapseWs s :=
  fun hm => by rcases mem_collapseWs hm with hm' | he ; exact h hm' ; exact absurd he (by decide)

/-- Tag-freeness survives whitespace collapsing. -/
theorem noTag_collapseWs : ∀ {s : List Char}, NoTag s → NoTag (collapseWs s) := by
  intro s
  induction s with
  | nil => intro _; exact noTag_nil
  | cons c rest ih =>
    intro h
    cases rest with
    | nil =>
      by_cases hc : isSpace c = true
      · rw [cw_single_sp hc]
        exact noTag_cons (by decide) noTag_nil
      · rw [cw_single (by simpa using hc)]
        by_cases hlt : c = '<'
        · subst hlt
          exact noTag_of_gt_not_mem (by decide)
        · exact noTag_cons hlt noTag_nil
    | cons c' b =>
      by_cases hc : isSpace c = true
      · by_cases hc' : isSpace c' = true
        · rw [cw_sp_sp b hc hc']
          exact ih (noTag_tail h)
        · rw [cw_sp_ns b hc (by simpa using hc')]
          exact noTag_cons (by decide) (ih (noTag_tail h))
      · rw [cw_ns c' b (by simpa using hc)]
        by_cases hlt : c = '<'
        · subst hlt
          rcases (noTag_cons_lt.mp h).1 with ⟨t, ht⟩ | hg
          · obtain ⟨rest', hr⟩ : ∃ r', collapseWs (c' :: b) = '>' :: r' := by
              have hc'' : c' = '>' := by
                simpa using congrArg (fun l => l.head?) ht
              subst hc''
              exact collapseWs_head_not_space b (by decide)
            rw [hr]
            refine noTag_cons_lt.mpr ⟨Or.inl ⟨rest', rfl⟩, ?_⟩
            rw [← hr]
            exact ih (noTag_tail h)
          · refine noTag_cons_lt.mpr ⟨Or.inr (gt_not_mem_collapseWs hg), ?_⟩
            exact ih (noTag_tail h)
        · exact noTag_cons hlt (ih (noTag_tail h))

theorem noTag_dropWhile (p : Char → Bool) {s : List Char} (h : NoTag s) :
    NoTag (s.dropWhile p) := by
  obtain ⟨a, ha⟩ := (List.dropWhile_suffix (l := s) p)
  exact noTag_append_right (ha ▸ h)

/-- Tag-freeness survives whitespace normalisation. -/
theorem noTag_cleanWs {s : List Char} (h : NoTag s) : NoTag (cleanWs s) := by
  rw [cleanWs, stripWs]
  obtain ⟨t, ht⟩ := rstrip_prefix (lstrip (collapseWs s))
  refine noTag_append_left (l := rstrip (lstrip (collapseWs s))) (r := t) ?_
  rw [← ht, lstrip]
  exact noTag_dropWhile _ (noTag_collapseWs h)

theorem not_mem_cleanWs {x : Char} (hx : x ≠ ' ') {s : List Char} (h : x ∉ s) :
    x ∉ cleanWs s := by
  rw [cleanWs, stripWs, rstrip]
  intro hm
  rw [List.mem_reverse] at hm
  have hm2 := (List.dropWhile_sublist (l := (lstrip (collapseWs s)).reverse) isSpace).mem hm
  rw [List.mem_reverse, lstrip] at hm2
  have hm3 := (List.dropWhile_sublist (l := collapseWs s) isSpace).mem hm2
  rcases mem_collapseWs hm3 with hm4 | he
  · exact h hm4
  · exact hx he

/-! ### Lemmas about entity decoding -/

theorem unescapeAux_of_no_amp : ∀ fuel s, '&' ∉ s → unescapeAux fuel s = s := by
  intro fuel
  induction fuel with
  | zero => intro s _; rfl
  | succ n ih =>
    intro s h
    cases s with
    | nil => rfl
    | cons c rest =>
      have hc : c ≠ '&' := fun hcc => h (hcc ▸ List.mem_cons_self c rest)
      rw [unescapeAux.eq_3, if_neg hc, ih rest fun hr => h (List.mem_cons_of_mem _ hr)]

theorem unescape_of_no_amp {s : List Char} (h : '&' ∉ s) : unescape s = s :=
  unescapeAux_of_no_amp _ _ h

/-! ### Idempotence of `strip_html` on reference-free text -/

/-- On input without `&`, one full `strip_html` pass is a fixed point of a
second pass. -/
theorem stripHtmlCore_idem {t : List Char} (h : '&' ∉ t) :
    stripHtmlCore (stripHtmlCore t) = stripHtmlCore t := by
  by_cases ht : t = []
  · subst ht; rfl
  · have hueq : stripHtmlCore t = cleanWs (removeTags t) := by
      rw [stripHtmlCore, if_neg ht, unescape_of_no_amp (amp_not_mem_removeTags h)]
    by_cases hu : stripHtmlCore t = []
    · conv_lhs => rw [stripHtmlCore]
      rw [if_pos hu]
    · conv_lhs => rw [stripHtmlCore]
      rw [if_neg hu, hueq]
      have hnt : NoTag (cleanWs (removeTags t)) := noTag_cleanWs (noTag_removeTags t)
      have hamp : '&' ∉ cleanWs (removeTags t) :=
        not_mem_cleanWs (by decide) (amp_not_mem_removeTags h)
      rw [removeTags_id_of_noTag hnt, unescape_of_no_amp hamp]
      exact cleanWs_idem (removeTags t)

/-! ### Lemmas about image extraction -/

theorem mem_imagesOfPost {p : Post} {r : ImageRec} :
    r ∈ imagesOfPost p ↔
      ∃ m, m ∈ p.media_attachments ∧ qualifies m = true ∧ r = recordOf p m := by
  rw [imagesOfPost, List.mem_map]
  constructor
  · rintro ⟨m, hm, hr⟩
    rw [List.mem_filter] at hm
    exact ⟨m, hm.1, hm.2, hr.symm⟩
  · rintro ⟨m, hm, hq, hr⟩
    exact ⟨m, List.mem_filter.mpr ⟨hm, hq⟩, hr.symm⟩

theorem mem_extract_images {posts : List Post} {r : ImageRec} :
    r ∈ extract_images_from_posts posts ↔ ∃ p, p ∈ posts ∧ r ∈ imagesOfPost p := by
  induction posts with
  | nil => simp [extract_images_from_posts]
  | cons p rest ih =>
    rw [extract_images_from_posts, List.mem_append, ih]
    constructor
    · rintro (h | ⟨q, hq, hr⟩)
      · exact ⟨p, List.mem_cons_self _ _, h⟩
      · exact ⟨q, List.mem_cons_of_mem _ hq, hr⟩
    · rintro ⟨q, hq, hr⟩
      rcases List.mem_cons.mp hq with he | hm
      · exact Or.inl (he ▸ hr)
      · exact Or.inr ⟨q, hm, hr⟩

/-! ### Lemmas about web-scrape deduplication -/

theorem mkScrapePost_inj {u v : String} (h : mkScrapePost u = mkScrapePost v) : u = v := by
  have h2 := congrArg (fun p => p.media_attachments) h
  simpa [mkScrapePost, scrapeAttachment] using h2

/-- Every emitted post is the canonical wrapper of a URL from the input that
was not yet seen, and the posts' attachment keys are pairwise distinct. -/
theorem scrapeGo_sound :
    ∀ (l seen : List String),
      ((scrapeGo l seen).map (fun p => p.media_attachments.map Media.url)).Nodup ∧
      ∀ p ∈ scrapeGo l seen, ∃ u, u ∈ l ∧ u ∉ seen ∧ p = mkScrapePost u := by
  intro l
  induction l with
  | nil => intro seen; exact ⟨List.nodup_nil, by simp [scrapeGo]⟩
  | cons u rest ih =>
    intro seen
    by_cases hu : u ∈ seen
    · rw [show scrapeGo (u :: rest) seen = scrapeGo rest seen from by simp [scrapeGo, hu]]
      obtain ⟨h1, h2⟩ := ih seen
      refine ⟨h1, fun p hp => ?_⟩
      obtain ⟨v, hv1, hv2, hv3⟩ := h2 p hp
      exact ⟨v, List.mem_cons_of_mem _ hv1, hv2, hv3⟩
    · rw [show scrapeGo (u :: rest) seen = mkScrapePost u :: scrapeGo rest (u :: seen) from by
        simp [scrapeGo, hu]]
      obtain ⟨h1, h2⟩ := ih (u :: seen)
      constructor
      · rw [List.map_cons, List.nodup_cons]
        refine ⟨fun hmem => ?_, h1⟩
        rw [List.mem_map] at hmem
        obtain ⟨p, hp, hpeq⟩ := hmem
        obtain ⟨v, hv1, hv2, hv3⟩ := h2 p hp
        subst hv3
        have hvu : v = u := by
          simp only [mkScrapePost, scrapeAttachment] at hpeq
          simpa using hpeq
        exact hv2 (hvu ▸ List.mem_cons_self _ _)
      · intro p hp
        rcases List.mem_cons.mp hp with he | hm
        · exact ⟨u, List.mem_cons_self _ _, hu, he⟩
        · obtain ⟨v, hv1, hv2, hv3⟩ := h2 p hm
          exact ⟨v, List.mem_cons_of_mem _ hv1,
            fun hvs => hv2 (List.mem_cons_of_mem _ hvs), hv3⟩

/-- Every not-yet-seen URL of the input produces a post. -/
theorem scrapeGo_complete :
    ∀ (l seen : List String) (u : String), u ∈ l → u ∉ seen →
      ∃ p, p ∈ scrapeGo l seen ∧ p = mkScrapePost u := by
  intro l
  induction l with
  | nil => intro seen u h; exact absurd h (by simp)
  | cons v rest ih =>
    intro seen u hu hus
    by_cases hv : v ∈ seen
    · rw [show scrapeGo (v :: rest) seen = scrapeGo rest seen from by simp [scrapeGo, hv]]
      rcases List.mem_cons.mp hu with he | hm
      · exact absurd (show u ∈ seen by rwa [he]) hus
      · exact ih seen u hm hus
    · rw [show scrapeGo (v :: rest) seen = mkScrapePost v :: scrapeGo rest (v :: seen) from by
        simp [scrapeGo, hv]]
      by_cases huv : u = v
      · exact ⟨mkScrapePost v, List.mem_cons_self _ _, by rw [huv]⟩
      · rcases List.mem_cons.mp hu with he | hm
        · exact absurd he huv
        · obtain ⟨p, hp1, hp2⟩ := ih (v :: seen) u hm (by
            simp only [List.mem_cons]
            push_neg
            exact ⟨huv, hus⟩)
          exact ⟨p, List.mem_cons_of_mem _ hp1, hp2⟩

/-! ### Lemmas about pagination -/

theorem apiGo_len {α : Type} (idOf : α → String) :
    ∀ (resps : List (Option (List α))) (pmax maxId : Option String),
      (apiGo idOf resps pmax maxId).2.length = (resps.takeWhile isFull).length + 1 := by
  intro resps
  induction resps with
  | nil => intro pmax maxId; simp [apiGo]
  | cons r rest ih =>
    intro pmax maxId
    cases r with
    | none => simp [apiGo, List.takeWhile_cons, isFull]
    | some posts =>
      by_cases he : posts.isEmpty
      · have hlen : posts.length = 0 := by
          simpa [List.isEmpty_iff, List.length_eq_zero] using he
        simp [apiGo, he, List.takeWhile_cons, isFull, hlen]
      · by_cases h40 : posts.length < 40
        · have hnf : isFull (some posts) = false := by simp [isFull]; omega
          simp [apiGo, he, h40, List.takeWhile_cons, hnf]
        · have hfull : isFull (some posts) = true := by simp [isFull]; omega
          simp only [apiGo, he, h40, Bool.false_eq_true, if_false, List.takeWhile_cons,
            hfull, if_true]
          simp only [List.length_cons]
          rw [ih]

theorem apiGo_head {α : Type} (idOf : α → String)
    (resps : List (Option (List α))) (pmax maxId : Option String) :
    (apiGo idOf resps pmax maxId).2.head?
      = some (if pyTruthy maxId then maxId else pmax) := by
  cases resps with
  | nil => simp [apiGo]
  | cons r rest =>
    cases r with
    | none => simp [apiGo]
    | some posts =>
      by_cases he : posts.isEmpty
      · simp [apiGo, he]
      · by_cases h40 : posts.length < 40
        · simp [apiGo, he, h40]
        · simp [apiGo, he, h40]

theorem apiGo_cursor {α : Type} (idOf : α → String) :
    ∀ (resps : List (Option (List α))) (pmax maxId : Option String),
      validPages idOf resps →
      ∀ (i : Nat) (d : Option String),
      (apiGo idOf resps pmax maxId).2[i + 1]? = some d →
      ∃ p, resps[i]? = some (some p) ∧ p ≠ [] ∧ d = p.getLast?.map idOf := by
  intro resps
  induction resps with
  | nil =>
    intro pmax maxId _ i d h
    simp [apiGo] at h
  | cons r rest ih =>
    intro pmax maxId hv i d h
    have hv_rest : validPages idOf rest := fun page hp => hv page (List.mem_cons_of_mem _ hp)
    cases r with
    | none => simp [apiGo] at h
    | some posts =>
      by_cases he : posts.isEmpty
      · rw [show apiGo idOf (some posts :: rest) pmax maxId
            = ([], [if pyTruthy maxId then maxId else pmax]) from by simp [apiGo, he]] at h
        simp at h
      · by_cases h40 : posts.length < 40
        · rw [show apiGo idOf (some posts :: rest) pmax maxId
              = (posts, [if pyTruthy maxId then maxId else pmax]) from by
            simp [apiGo, he, h40]] at h
          simp at h
        · have hne : posts ≠ [] := by simpa [List.isEmpty_iff] using he
          obtain ⟨last, hlast⟩ : ∃ a, posts.getLast? = some a := by
            cases hgl : posts.getLast? with
            | none => exact absurd (List.getLast?_eq_none_iff.mp hgl) hne
            | some a => exact ⟨a, rfl⟩
          have hlast_mem : last ∈ posts := List.mem_of_mem_getLast? hlast
          have hid : idOf last ≠ "" := hv (some posts) (List.mem_cons_self _ _) last hlast_mem
          have htr : pyTruthy (posts.getLast?.map idOf) = true := by
            rw [hlast]
            simpa [pyTruthy] using hid
          rw [show (apiGo idOf (some posts :: rest) pmax maxId).2
              = (if pyTruthy maxId then maxId else pmax)
                :: (apiGo idOf rest (if pyTruthy maxId then maxId else pmax)
                      (posts.getLast?.map idOf)).2 from by
            simp [apiGo, he, h40]] at h
          rw [List.getElem?_cons_succ] at h
          cases i with
          | zero =>
            rw [show (apiGo idOf rest (if pyTruthy maxId then maxId else pmax)
                  (posts.getLast?.map idOf)).2[0]?
                = (apiGo idOf rest (if pyTruthy maxId then maxId else pmax)
                    (posts.getLast?.map idOf)).2.head? from
              (List.head?_eq_getElem? _).symm] at h
            rw [apiGo_head, if_pos htr] at h
            exact ⟨posts, by simp, hne, by simpa using h.symm⟩
          | succ j =>
            obtain ⟨p, hp, hpne, hd⟩ := ih (if pyTruthy maxId then maxId else pmax)
              (posts.getLast?.map idOf) hv_rest j d h
            exact ⟨p, by simpa using hp, hpne, hd⟩

/-! ### Lemmas about `make_api_request` -/

theorem makeApiGo_count_le (script : Nat → NetEvent) :
    ∀ fuel k, k ≤ (makeApiGo script fuel k).2 := by
  intro fuel
  induction fuel with
  | zero => intro k; exact le_rfl
  | succ n ih =>
    intro k
    have hk : k ≤ k + 1 := Nat.le_succ k
    have hrec : k ≤ (makeApiGo script n (k + 1)).2 := le_trans hk (ih (k + 1))
    rw [makeApiGo]
    cases script k with
    | raised =>
      by_cases hn : n = 0 <;> simp [hn, hrec, hk]
    | resp r =>
      by_cases h429 : r.status = 429
      · rcases hra : r.retryAfter with _ | ra
        · simp [h429, hra, hrec]
        · cases ra <;> simp [h429, hra, hrec, hk]
      · by_cases hdef : r.status = 401 ∨ r.status = 403 ∨ r.status = 404
        · simp [h429, hdef, hk]
        · by_cases h5 : 500 ≤ r.status
          · by_cases hn : n = 0 <;> simp [h429, hdef, h5, hn, hrec, hk]
          · by_cases h4 : 400 ≤ r.status
            · by_cases hn : n = 0 <;> simp [h429, hdef, h5, h4, hn, hrec, hk]
            · cases hb : r.body <;> by_cases hn : n = 0 <;>
                simp [h429, hdef, h5, h4, hb, hn, hrec, hk]

theorem makeApiGo_count_ge_one (script : Nat → NetEvent) :
    ∀ fuel k, 0 < fuel → k + 1 ≤ (makeApiGo script fuel k).2 := by
  intro fuel k hf
  cases fuel with
  | zero => exact absurd hf (by omega)
  | succ n =>
    have hrec : k + 1 ≤ (makeApiGo script n (k + 1)).2 := makeApiGo_count_le script n (k + 1)
    rw [makeApiGo]
    cases script k with
    | raised =>
      by_cases hn : n = 0 <;> simp [hn, hrec]
    | resp r =>
      by_cases h429 : r.status = 429
      · rcases hra : r.retryAfter with _ | ra
        · simp [h429, hra, hrec]
        · cases ra <;> simp [h429, hra, hrec]
      · by_cases hdef : r.status = 401 ∨ r.status = 403 ∨ r.status = 404
        · simp [h429, hdef]
        · by_cases h5 : 500 ≤ r.status
          · by_cases hn : n = 0 <;> simp [h429, hdef, h5, hn, hrec]
          · by_cases h4 : 400 ≤ r.status
            · by_cases hn : n = 0 <;> simp [h429, hdef, h5, h4, hn, hrec]
            · cases hb : r.body <;> by_cases hn : n = 0 <;>
                simp [h429, hdef, h5, h4, hb, hn, hrec]

/-- With numeric (or absent) `Retry-After` headers on every 429 response, no
exception escapes `make_api_request`: every outcome is a normal return. -/
theorem makeApiGo_no_error (script : Nat → NetEvent)
    (hs : ∀ k r, script k = .resp r → r.status = 429 → r.retryAfter ≠ some .other) :
    ∀ fuel k, ∃ v, (makeApiGo script fuel k).1 = .ok v := by
  intro fuel
  induction fuel with
  | zero => intro k; exact ⟨none, rfl⟩
  | succ n ih =>
    intro k
    rw [makeApiGo]
    cases hsk : script k with
    | raised =>
      by_cases hn : n = 0
      · simp [hn]
      · simpa [hn] using ih (k + 1)
    | resp r =>
      by_cases h429 : r.status = 429
      · rcases hra : r.retryAfter with _ | ra
        · simpa [h429, hra] using ih (k + 1)
        · cases ra with
          | num m => simpa [h429, hra] using ih (k + 1)
          | other => exact absurd hra (hs k r hsk h429)
      · by_cases hdef : r.status = 401 ∨ r.status = 403 ∨ r.status = 404
        · simp [h429, hdef]
        · by_cases h5 : 500 ≤ r.status
          · by_cases hn : n = 0
            · simp [h429, hdef, h5, hn]
            · simpa [h429, hdef, h5, hn] using ih (k + 1)
          · by_cases h4 : 400 ≤ r.status
            · by_cases hn : n = 0
              · simp [h429, hdef, h5, h4, hn]
              · simpa [h429, hdef, h5, h4, hn] using ih (k + 1)
            · cases hb : r.body with
              | empty => simp [h429, hdef, h5, h4, hb]
              | json => simp [h429, hdef, h5, h4, hb]
              | bad =>
                by_cases hn : n = 0
                · simp [h429, hdef, h5, h4, hb, hn]
                · simpa [h429, hdef, h5, h4, hb, hn] using ih (k + 1)

/-- A 401/403/404 first response is definitive: exactly one request, `None`. -/
theorem make_api_request_definitive (script : Nat → NetEvent) (r : HResp)
    (h : script 0 = .resp r) (hd : r.status = 401 ∨ r.status = 403 ∨ r.status = 404) :
    make_api_request script = (.ok none, 1) := by
  have h429 : ¬r.status = 429 := by rcases hd with h' | h' | h' <;> omega
  rw [make_api_request, makeApiGo, h]
  simp [h429, hd]

/-- A retryable first response (429 with usable header, 5xx, other 4xx via
`raise_for_status`, or malformed JSON) leads to a second request. -/
theorem make_api_request_retries (script : Nat → NetEvent) (r : HResp)
    (h : script 0 = .resp r)
    (hret : (r.status = 429 ∧ r.retryAfter ≠ some .other) ∨ 500 ≤ r.status ∨
      (400 ≤ r.status ∧ r.status < 500 ∧
        r.status ≠ 401 ∧ r.status ≠ 403 ∧ r.status ≠ 404 ∧ r.status ≠ 429) ∨
      (r.status < 400 ∧ r.body = .bad)) :
    2 ≤ (make_api_request script).2 := by
  have hbase : 1 + 1 ≤ (makeApiGo script 2 1).2 := makeApiGo_count_ge_one script 2 1 (by omega)
  rw [make_api_request, makeApiGo, h]
  rcases hret with ⟨h429, hra⟩ | h5 | ⟨h4a, h4b, h4c, h4d, h4e, h4f⟩ | ⟨hlt, hbad⟩
  · rcases hrae : r.retryAfter with _ | ra
    · simpa [h429, hrae] using hbase
    · cases ra with
      | num m => simpa [h429, hrae] using hbase
      | other => exact absurd hrae hra
  · have h429 : ¬r.status = 429 := by omega
    have hdef : ¬(r.status = 401 ∨ r.status = 403 ∨ r.status = 404) := by omega
    simpa [h429, hdef, h5] using hbase
  · have hdef : ¬(r.status = 401 ∨ r.status = 403 ∨ r.status = 404) := by
      push_neg
      exact ⟨h4c, h4d, h4e⟩
    have h5 : ¬500 ≤ r.status := by omega
    simpa [h4f, hdef, h5, h4a] using hbase
  · have h429 : ¬r.status = 429 := by omega
    have hdef : ¬(r.status = 401 ∨ r.status = 403 ∨ r.status = 404) := by omega
    have h5 : ¬500 ≤ r.status := by omega
    have h4 : ¬400 ≤ r.status := by omega
    simpa [h429, hdef, h5, h4, hbad] using hbase

/-! ### Claim theorems -/

/-- Claim C1 (confirmed): the orchestrator tries the four fetch strategies in
the fixed order 1, 2, 3, 4 (the invocation list is a sublist of `[1,2,3,4]`
in that order), and whenever strategy 1 is invoked and returns at least one
post, strategies 2, 3 and 4 are never invoked in that run. -/
theorem strategy_fallback_order (a : Option String) (token : String)
    (r1 r2 r3 r4 : List Post) :
    (runStrategies a token r1 r2 r3 r4).2.2.Sublist [1, 2, 3, 4] ∧
    (1 ∈ (runStrategies a token r1 r2 r3 r4).2.2 → r1 ≠ [] →
      (runStrategies a token r1 r2 r3 r4).2.2 = [1]) := by
  by_cases hc1 : pyTruthy a = true ∧ token ≠ "" <;>
    by_cases h1 : r1 = [] <;>
    by_cases ha : pyTruthy a = true <;>
    by_cases h2 : r2 = [] <;>
    by_cases h3 : r3 = [] <;>
    simp_all [runStrategies]

/-- Witness for C1: with an account id, a token, and a non-empty strategy-1
result, only strategy 1 runs. -/
theorem strategy_fallback_order_witness :
    (runStrategies (some "42") "t" [demoPost] [] [] []).2.2 = [1] :=
  (strategy_fallback_order (some "42") "t" [demoPost] [] [] []).2 (by decide) (by decide)

/-- Claim C2 (confirmed): for every sequence of valid paginated API
responses (each served item carrying a non-empty identifier),
`get_posts_via_api` issues exactly one request more than the number of
leading full pages (a page with at least the batch size 40 of items keeps
the loop going; a short, empty or missing page stops it); the first request
carries no cursor, and the cursor of every subsequent request is the
identifier of the last item of the previous (necessarily full, hence
non-empty) page. -/
theorem api_pagination_contract {α : Type} (idOf : α → String)
    (resps : List (Option (List α))) (hv : validPages idOf resps) :
    (get_posts_via_api idOf resps).2.length = (resps.takeWhile isFull).length + 1 ∧
    (get_posts_via_api idOf resps).2.head? = some none ∧
    (∀ i d, (get_posts_via_api idOf resps).2[i + 1]? = some d →
      ∃ p, resps[i]? = some (some p) ∧ p ≠ [] ∧ d = p.getLast?.map idOf) :=
  ⟨apiGo_len idOf resps none none, by
    rw [get_posts_via_api, apiGo_head]
    simp [pyTruthy],
    fun i d h => apiGo_cursor idOf resps none none hv i d h⟩

/-- Witness for C2: on a full page followed by a short page the second
request's cursor is the last identifier of the first page. -/
theorem api_pagination_contract_witness :
    ∃ p, demoPages[0]? = some (some p) ∧ p ≠ [] ∧
      (some "last" : Option String) = p.getLast?.map (fun s => s) :=
  (api_pagination_contract (fun s => s) demoPages (by unfold validPages; decide)).2.2 0 (some "last")
    (by decide)

/-- Claim C3 (confirmed): every image record emitted by
`extract_images_from_posts` comes from a post of the input together with one
of its attachments whose effective type is image-like, and a post none of
whose attachments qualifies contributes no records at all. -/
theorem extract_requires_image_attachment (posts : List Post) :
    (∀ r, r ∈ extract_images_from_posts posts →
      ∃ p m, p ∈ posts ∧ m ∈ p.media_attachments ∧ qualifies m = true ∧ r = recordOf p m) ∧
    (∀ p, (∀ m, m ∈ p.media_attachments → qualifies m = false) → imagesOfPost p = []) := by
  constructor
  · intro r hr
    obtain ⟨p, hp, hr2⟩ := mem_extract_images.mp hr
    obtain ⟨m, hm, hq, hre⟩ := mem_imagesOfPost.mp hr2
    exact ⟨p, m, hp, hm, hq, hre⟩
  · intro p hall
    have hf : p.media_attachments.filter qualifies = [] := by
      rw [List.filter_eq_nil_iff]
      intro m hm
      simp [hall m hm]
    rw [imagesOfPost, hf]
    rfl

/-- Witness for C3: a post whose only attachment is a video yields nothing. -/
theorem extract_requires_image_attachment_witness :
    imagesOfPost demoVideoPost = [] :=
  (extract_requires_image_attachment []).2 demoVideoPost (by decide)

/-- Claim C4 (code bug): the claim says no exception from a strategy escapes,
and in particular unexpected header values during retry handling degrade to
an empty result.  But on a 429 response whose `Retry-After` header is not a
decimal string (a legal HTTP-date, say), `int(...)` on line 76 raises
`ValueError`, which the `except (JSONDecodeError, RequestException)` clause
does not catch; the error escapes `make_api_request` (first conjunct).  With
a numeric header the very same script is handled without an exception
(second conjunct), isolating the slip to the header conversion. -/
theorem retry_after_valueerror_escapes :
    make_api_request (fun _ => .resp ⟨429, some .other, .empty⟩)
      = (.error .valueError, 1) ∧
    make_api_request (fun _ => .resp ⟨429, some (.num 1), .empty⟩) = (.ok none, 3) :=
  ⟨rfl, rfl⟩

/-- Counterexample to C5 as stated: a 400 response is a 4xx status other than
429, yet the code retries it — the first request is followed by two more
(three requests in total), because `raise_for_status` turns it into an
`HTTPError` that the retry-handling `except` clause catches. -/
theorem http_400_is_retried :
    (make_api_request (fun _ => .resp ⟨400, none, .bad⟩)).2 = 3 ∧
    (make_api_request (fun _ => .resp ⟨400, none, .bad⟩)).2 ≠ 1 :=
  ⟨rfl, by decide⟩

/-- Claim C5 (corrected): only 401, 403 and 404 responses are definitive - a
single request, returning `None`, with no retry; a 429 response with a
numeric or absent `Retry-After` header and a 5xx response are retried, and
every other 4xx status is retried as well (via the caught `HTTPError`). -/
theorem retry_policy (script : Nat → NetEvent) (r : HResp) (h : script 0 = .resp r) :
    ((r.status = 401 ∨ r.status = 403 ∨ r.status = 404) →
      make_api_request script = (.ok none, 1)) ∧
    (r.status = 429 → r.retryAfter ≠ some .other → 2 ≤ (make_api_request script).2) ∧
    (500 ≤ r.status → 2 ≤ (make_api_request script).2) ∧
    (400 ≤ r.status → r.status < 500 → r.status ≠ 401 → r.status ≠ 403 →
      r.status ≠ 404 → r.status ≠ 429 → 2 ≤ (make_api_request script).2) :=
  ⟨fun hd => make_api_request_definitive script r h hd,
   fun h429 hra => make_api_request_retries script r h (Or.inl ⟨h429, hra⟩),
   fun h5 => make_api_request_retries script r h (Or.inr (Or.inl h5)),
   fun a b c d e f =>
     make_api_request_retries script r h (Or.inr (Or.inr (Or.inl ⟨a, b, c, d, e, f⟩)))⟩

/-- Witness for C5 (amended): a 404 response gives one request and `None`. -/
theorem retry_policy_witness :
    make_api_request (fun _ => .resp ⟨404, none, .bad⟩) = (.ok none, 1) :=
  (retry_policy (fun _ => .resp ⟨404, none, .bad⟩) ⟨404, none, .bad⟩ rfl).1
    (Or.inr (Or.inr rfl))

/-- Claim C6 (code bug): strategy 2 is documented as the API "without token",
but it calls the same `get_posts_via_api`, whose requests all use
`get_headers()`; whenever the configured token is non-empty, those headers
contain the bearer `Authorization` header, so strategy 2's requests are not
credential-free. -/
theorem api_strategy_sends_auth_header (token : String) (h : token ≠ "") :
    ("Authorization", "Bearer " ++ token) ∈ apiRequestHeaders token := by
  simp [apiRequestHeaders, get_headers, h]

/-- Witness for C6: with the token `"t"` configured, the API strategies'
request headers contain the bearer authorization header. -/
theorem api_strategy_sends_auth_header_witness :
    ("Authorization", "Bearer " ++ "t") ∈ apiRequestHeaders "t" :=
  api_strategy_sends_auth_header "t" (by decide)

/-- Counterexample to C7 as stated: `strip_html` is not idempotent on all
strings.  On `"&lt;b&gt;"` the first pass decodes the character references to
`"<b>"`, and a second pass then removes that as a tag, leaving `""`. -/
theorem strip_html_not_idempotent :
    strip_html "&lt;b&gt;" = "<b>" ∧
    strip_html (strip_html "&lt;b&gt;") = "" ∧
    strip_html (strip_html "&lt;b&gt;") ≠ strip_html "&lt;b&gt;" :=
  ⟨by decide, by decide, by decide⟩

/-- Claim C7 (corrected): `strip_html` is idempotent on every string that
contains no ampersand - equivalently, no HTML character reference - since
then entity decoding cannot manufacture new markup: a single pass leaves no
complete tag, its output is ampersand-free, and whitespace is already
normalised, so a second pass returns it unchanged. -/
theorem strip_html_idem_of_no_amp (s : String) (h : '&' ∉ s.data) :
    strip_html (strip_html s) = strip_html s :=
  congrArg String.mk (stripHtmlCore_idem h)

/-- Witness for C7 (amended): an ampersand-free string with tags and ragged
whitespace is cleaned the same way twice. -/
theorem strip_html_idem_of_no_amp_witness :
    ('&' ∉ ("<p>hi  there</p> " : String).data) ∧
    strip_html (strip_html "<p>hi  there</p> ") = strip_html "<p>hi  there</p> " :=
  ⟨by decide, strip_html_idem_of_no_amp "<p>hi  there</p> " (by decide)⟩

/-- Claim C8 (confirmed): when all four strategies yield an empty post list,
the run still produces its output document, and that document has zero total
posts, zero total images, method `"none"`, and an empty image array -
whatever the account id and token situation. -/
theorem all_strategies_empty_output (a : Option String) (token : String) :
    (mainRun a token [] [] [] []).total_posts = 0 ∧
    (mainRun a token [] [] [] []).total_images = 0 ∧
    (mainRun a token [] [] [] []).method = "none" ∧
    (mainRun a token [] [] [] []).images = [] := by
  by_cases hc1 : pyTruthy a = true ∧ token ≠ "" <;>
    by_cases ha : pyTruthy a = true <;>
    simp_all [mainRun, runStrategies, extract_images_from_posts]

/-- Claim C9 (confirmed): the `tags` field of every image record emitted by
`extract_images_from_posts` is duplicate-free, regardless of how many
duplicate hashtags the source post carried. -/
theorem image_record_tags_nodup (posts : List Post) (r : ImageRec)
    (h : r ∈ extract_images_from_posts posts) : r.tags.Nodup := by
  obtain ⟨p, _, hr⟩ := mem_extract_images.mp h
  obtain ⟨m, _, _, hre⟩ := mem_imagesOfPost.mp hr
  rw [hre]
  simp only [recordOf]
  exact List.nodup_dedup _

/-- Witness for C9: the record of a post with hashtags `a, a, b` has
duplicate-free tags. -/
theorem image_record_tags_nodup_witness :
    (recordOf demoTagPost demoImageAttachment).tags.Nodup :=
  image_record_tags_nodup [demoTagPost] _ (by decide)

/-- Claim C10 (confirmed): `scrape_posts_from_web` collapses duplicate image
URLs - the synthesized posts carry pairwise-distinct attachment URL lists -
every synthesized post has null content and timestamp and exactly the single
attachment built from one matched URL, and every matched URL yields such a
post. -/
theorem scrape_web_dedups (images : List String) :
    ((scrape_posts_from_web images).map (fun p => p.media_attachments.map Media.url)).Nodup ∧
    (∀ p, p ∈ scrape_posts_from_web images →
      p.content = none ∧ p.created_at = none ∧
      ∃ u, u ∈ images ∧ p.media_attachments = [scrapeAttachment u]) ∧
    (∀ u, u ∈ images → ∃ p, p ∈ scrape_posts_from_web images ∧
      p.media_attachments = [scrapeAttachment u]) := by
  obtain ⟨h1, h2⟩ := scrapeGo_sound images []
  refine ⟨h1, fun p hp => ?_, fun u hu => ?_⟩
  · obtain ⟨u, hu1, _, hu3⟩ := h2 p hp
    subst hu3
    exact ⟨rfl, rfl, u, hu1, rfl⟩
  · obtain ⟨p, hp1, hp2⟩ := scrapeGo_complete images [] u hu (by simp)
    exact ⟨p, hp1, by rw [hp2, mkScrapePost]⟩

/-- Witness for C10: scraping `["a", "b", "a"]` yields a post wrapping the
URL `"a"`. -/
theorem scrape_web_dedups_witness :
    ∃ p, p ∈ scrape_posts_from_web ["a", "b", "a"] ∧
      p.media_attachments = [scrapeAttachment "a"] :=
  (scrape_web_dedups ["a", "b", "a"]).2.2 "a" (by decide)

end Pixelfed
